import Mathlib

/-!
Verification of the LinkFlow scheduling invariant engine, action resolution
engine, due-action poller, scheme deletion, and recurrence rollover, as a
shallow embedding of the TypeScript sources (`src/utils/schedule.ts`,
`src/utils/actionEngine.ts`, `src/App.tsx`, `src/store/useAppStore.ts`,
`src/components/modals/ActionPickerModal.tsx`).

Modelling conventions:
* A TypeScript `string | null | undefined` field becomes `Option String`
  (`none` stands for both `null` and `undefined`; the sources never
  distinguish them).  JavaScript string falsiness (`!value` being true for
  the empty string as well as for `null`/`undefined`) is modelled
  explicitly by `strFalsy`.
* JavaScript numbers carried by reminders become `ℚ` (the reminder code
  only floors and maxes, which is exact on rationals; no claim here
  depends on floating-point rounding).
* `String.prototype.trim` is modelled on the ASCII whitespace characters
  recognised by `Char.isWhitespace`; the regular expressions
  `^\d{4}-\d{2}-\d{2}$` and `^\d{2}:\d{2}$` are modelled by direct
  character-list matches (`\d` is `[0-9]`).
-/

namespace LinkFlow

/-! ## Data model (`src/types/models.ts`) -/

/-- `RelativeReminder` from `models.ts`: the tagged `relative` reminder.
The tag is carried by the type itself; `offsetMinutes : ℚ` models the
JavaScript number. -/
structure RelativeReminder where
  offsetMinutes : ℚ
deriving DecidableEq

/-- `TaskReminder = RelativeReminder | null`; `none` is `null` (and also
stands for an `undefined` optional field, which the code treats alike). -/
abbrev TaskReminder := Option RelativeReminder

/-- `ScheduleFields` (and its `Required<...>` form) from
`src/utils/schedule.ts`: the three schedule fields of a task draft. -/
structure ScheduleFields where
  dueDate : Option String
  time : Option String
  reminder : TaskReminder
deriving DecidableEq

/-- JavaScript falsiness of a `string | null | undefined` value: `null`,
`undefined` and the empty string are falsy. -/
def strFalsy : Option String → Bool
  | none => true
  | some s => s = ""

/-! ## `src/utils/schedule.ts` -/

/-- The regular expression `DATE_PATTERN = /^\d{4}-\d{2}-\d{2}$/`. -/
def matchesDatePattern (s : String) : Bool :=
  match s.data with
  | [y1, y2, y3, y4, h1, m1, m2, h2, d1, d2] =>
    y1.isDigit && y2.isDigit && y3.isDigit && y4.isDigit && h1 == '-' &&
    m1.isDigit && m2.isDigit && h2 == '-' && d1.isDigit && d2.isDigit
  | _ => false

/-- The regular expression `TIME_PATTERN = /^\d{2}:\d{2}$/`. -/
def matchesTimePattern (s : String) : Bool :=
  match s.data with
  | [h1, h2, c, m1, m2] =>
    h1.isDigit && h2.isDigit && c == ':' && m1.isDigit && m2.isDigit
  | _ => false

/-- `value.trim()` on the underlying character list: drop whitespace from
both ends. -/
def jsTrimList (l : List Char) : List Char :=
  ((l.dropWhile Char.isWhitespace).reverse.dropWhile Char.isWhitespace).reverse

/-- `value.trim()`. -/
def jsTrim (s : String) : String :=
  ⟨jsTrimList s.data⟩

/-- `normalizeDueDate` from `schedule.ts`: falsy input gives `null`,
otherwise trim and test against `DATE_PATTERN`. -/
def normalizeDueDate : Option String → Option String
  | none => none
  | some s =>
    if s = "" then none
    else
      let trimmed := jsTrim s
      if matchesDatePattern trimmed then some trimmed else none

/-- `normalizeTime` from `schedule.ts`. -/
def normalizeTime : Option String → Option String
  | none => none
  | some s =>
    if s = "" then none
    else
      let trimmed := jsTrim s
      if matchesTimePattern trimmed then some trimmed else none

/-- `normalizeReminder` from `schedule.ts`: `null` (or a non-`relative`
value, which the type rules out) becomes `null`; otherwise the offset is
floored and clamped to be non-negative
(`Math.max(0, Math.floor(reminder.offsetMinutes))`). -/
def normalizeReminder : TaskReminder → TaskReminder
  | none => none
  | some r => some ⟨((max 0 ⌊r.offsetMinutes⌋ : ℤ) : ℚ)⟩

/-- `clearInvalidReminder` from `schedule.ts`: clear the reminder when the
due date or the time is falsy. -/
def clearInvalidReminder (fields : ScheduleFields) : ScheduleFields :=
  if strFalsy fields.dueDate || strFalsy fields.time then
    { fields with reminder := none }
  else
    fields

/-- `applyScheduleInvariants` from `schedule.ts`: normalize all three
fields, then cascade: no due date clears everything, no time clears the
reminder. -/
def applyScheduleInvariants (fields : ScheduleFields) : ScheduleFields :=
  let normalized : ScheduleFields :=
    { dueDate := normalizeDueDate fields.dueDate
      time := normalizeTime fields.time
      reminder := normalizeReminder fields.reminder }
  if strFalsy normalized.dueDate then
    { dueDate := none, time := none, reminder := none }
  else if strFalsy normalized.time then
    { dueDate := normalized.dueDate, time := none, reminder := none }
  else
    clearInvalidReminder normalized

/-- `ScheduleAction` from `schedule.ts`. -/
inductive ScheduleAction where
  | setDueDate (dueDate : Option String)
  | setTime (time : Option String)
  | setReminder (reminder : TaskReminder)
deriving DecidableEq

/-- `reduceSchedule` from `schedule.ts`: the draft-schedule reducer.
`today` is the current date string supplied by the store
(`formatDate(new Date())` in `useAppStore.ts`). -/
def reduceSchedule (state : ScheduleFields) (action : ScheduleAction)
    (today : String) : ScheduleFields :=
  match action with
  | .setDueDate d =>
    if strFalsy (normalizeDueDate d) then
      { dueDate := none, time := none, reminder := none }
    else
      applyScheduleInvariants
        { dueDate := normalizeDueDate d, time := state.time,
          reminder := state.reminder }
  | .setTime t =>
    if strFalsy (normalizeTime t) then
      applyScheduleInvariants
        { dueDate := state.dueDate, time := none, reminder := none }
    else
      applyScheduleInvariants
        { dueDate := state.dueDate.orElse (fun _ => normalizeDueDate (some today))
          time := normalizeTime t
          reminder := state.reminder }
  | .setReminder r =>
    if strFalsy state.dueDate || strFalsy state.time then
      { state with reminder := none }
    else
      { state with reminder := normalizeReminder r }

/-! ## Helper lemmas about normalization -/

theorem digit_not_whitespace (c : Char) (h : c.isDigit = true) :
    c.isWhitespace = false := by
  simp only [Char.isDigit, Bool.and_eq_true, decide_eq_true_eq] at h
  simp only [Char.isWhitespace, Bool.or_eq_false_iff, decide_eq_false_iff_not]
  refine ⟨⟨⟨?_, ?_⟩, ?_⟩, ?_⟩ <;> rintro rfl <;> simp_all

theorem dropWhile_eq_self_of_head (p : Char → Bool) (l : List Char)
    (h : ∀ c ∈ l, p c = false) : l.dropWhile p = l := by
  cases l with
  | nil => rfl
  | cons a l =>
    have := h a (List.mem_cons_self a l)
    simp [List.dropWhile, this]

theorem jsTrimList_eq_self (l : List Char)
    (h : ∀ c ∈ l, c.isWhitespace = false) : jsTrimList l = l := by
  unfold jsTrimList
  rw [dropWhile_eq_self_of_head _ _ h,
    dropWhile_eq_self_of_head _ _ (fun c hc => h c (List.mem_reverse.mp hc)),
    List.reverse_reverse]

theorem matchesDatePattern_chars (s : String) (h : matchesDatePattern s = true) :
    ∀ c ∈ s.data, c.isWhitespace = false := by
  unfold matchesDatePattern at h
  split at h
  case h_2 => exact absurd h (by simp)
  case h_1 y1 y2 y3 y4 h1 m1 m2 h2 d1 d2 heq =>
    simp only [Bool.and_eq_true, beq_iff_eq] at h
    obtain ⟨⟨⟨⟨⟨⟨⟨⟨⟨hy1, hy2⟩, hy3⟩, hy4⟩, hh1⟩, hm1⟩, hm2⟩, hh2⟩, hd1⟩, hd2⟩ := h
    intro c hc
    rw [heq] at hc
    simp only [List.mem_cons, List.not_mem_nil, or_false] at hc
    rcases hc with rfl | rfl | rfl | rfl | rfl | rfl | rfl | rfl | rfl | rfl
    · exact digit_not_whitespace _ hy1
    · exact digit_not_whitespace _ hy2
    · exact digit_not_whitespace _ hy3
    · exact digit_not_whitespace _ hy4
    · rw [hh1]; rfl
    · exact digit_not_whitespace _ hm1
    · exact digit_not_whitespace _ hm2
    · rw [hh2]; rfl
    · exact digit_not_whitespace _ hd1
    · exact digit_not_whitespace _ hd2

theorem matchesTimePattern_chars (s : String) (h : matchesTimePattern s = true) :
    ∀ c ∈ s.data, c.isWhitespace = false := by
  unfold matchesTimePattern at h
  split at h
  case h_2 => exact absurd h (by simp)
  case h_1 h1 h2 c0 m1 m2 heq =>
    simp only [Bool.and_eq_true, beq_iff_eq] at h
    obtain ⟨⟨⟨⟨hh1, hh2⟩, hc0⟩, hm1⟩, hm2⟩ := h
    intro c hc
    rw [heq] at hc
    simp only [List.mem_cons, List.not_mem_nil, or_false] at hc
    rcases hc with rfl | rfl | rfl | rfl | rfl
    · exact digit_not_whitespace _ hh1
    · exact digit_not_whitespace _ hh2
    · rw [hc0]; rfl
    · exact digit_not_whitespace _ hm1
    · exact digit_not_whitespace _ hm2

theorem matchesDatePattern_ne_empty (s : String)
    (h : matchesDatePattern s = true) : s ≠ "" := by
  intro hs
  subst hs
  exact absurd h (by simp [matchesDatePattern])

theorem matchesTimePattern_ne_empty (s : String)
    (h : matchesTimePattern s = true) : s ≠ "" := by
  intro hs
  subst hs
  exact absurd h (by simp [matchesTimePattern])

theorem jsTrim_matched_date (s : String) (h : matchesDatePattern s = true) :
    jsTrim s = s := by
  unfold jsTrim
  rw [jsTrimList_eq_self s.data (matchesDatePattern_chars s h)]

theorem jsTrim_matched_time (s : String) (h : matchesTimePattern s = true) :
    jsTrim s = s := by
  unfold jsTrim
  rw [jsTrimList_eq_self s.data (matchesTimePattern_chars s h)]

/-- The output of `normalizeDueDate`, when non-null, is a trimmed string
matching the date pattern. -/
theorem normalizeDueDate_out (v : Option String) (d : String)
    (h : normalizeDueDate v = some d) : matchesDatePattern d = true := by
  cases v with
  | none => exact absurd h (by simp [normalizeDueDate])
  | some s =>
    unfold normalizeDueDate at h
    by_cases hs : s = ""
    · simp [hs] at h
    · simp only [hs, if_false] at h
      by_cases hm : matchesDatePattern (jsTrim s) = true
      · simp only [hm, if_true, Option.some.injEq] at h
        rw [← h]; exact hm
      · simp [hm] at h

theorem normalizeTime_out (v : Option String) (t : String)
    (h : normalizeTime v = some t) : matchesTimePattern t = true := by
  cases v with
  | none => exact absurd h (by simp [normalizeTime])
  | some s =>
    unfold normalizeTime at h
    by_cases hs : s = ""
    · simp [hs] at h
    · simp only [hs, if_false] at h
      by_cases hm : matchesTimePattern (jsTrim s) = true
      · simp only [hm, if_true, Option.some.injEq] at h
        rw [← h]; exact hm
      · simp [hm] at h

/-- A string matching the date pattern is a fixed point of
`normalizeDueDate`. -/
theorem normalizeDueDate_fixed (d : String) (h : matchesDatePattern d = true) :
    normalizeDueDate (some d) = some d := by
  simp only [normalizeDueDate]
  rw [if_neg (matchesDatePattern_ne_empty d h)]
  simp only [jsTrim_matched_date d h, h, if_true]

theorem normalizeTime_fixed (t : String) (h : matchesTimePattern t = true) :
    normalizeTime (some t) = some t := by
  simp only [normalizeTime]
  rw [if_neg (matchesTimePattern_ne_empty t h)]
  simp only [jsTrim_matched_time t h, h, if_true]

theorem normalizeReminder_idem (r : TaskReminder) :
    normalizeReminder (normalizeReminder r) = normalizeReminder r := by
  cases r with
  | none => rfl
  | some r =>
    simp only [normalizeReminder, RelativeReminder.mk.injEq, Option.some.injEq]
    rw [Int.floor_intCast]
    norm_cast
    omega

/-! ## C1: the normalizer output satisfies the schedule invariants -/

/-- The §3 invariants on a schedule triple: `time` set implies `dueDate`
set, and `reminder` set implies both. -/
def scheduleInvariant (f : ScheduleFields) : Prop :=
  (f.time.isSome → f.dueDate.isSome) ∧
  (f.reminder.isSome → f.dueDate.isSome ∧ f.time.isSome)

theorem strFalsy_false_isSome (v : Option String) (h : strFalsy v = false) :
    v.isSome = true := by
  cases v with
  | none => exact absurd h (by simp [strFalsy])
  | some s => rfl

/-- C1: for every input triple, `applyScheduleInvariants` returns a triple
in which `time` is non-null only if `dueDate` is non-null, and `reminder`
is non-null only if both `dueDate` and `time` are non-null. -/
theorem applyScheduleInvariants_invariant (f : ScheduleFields) :
    scheduleInvariant (applyScheduleInvariants f) := by
  unfold applyScheduleInvariants
  by_cases hd : strFalsy (normalizeDueDate f.dueDate) = true
  · simp only [hd, if_true]
    exact ⟨by simp, by simp⟩
  · rw [Bool.not_eq_true] at hd
    simp only [hd, Bool.false_eq_true, if_false]
    by_cases ht : strFalsy (normalizeTime f.time) = true
    · simp only [ht, if_true]
      exact ⟨by simp [strFalsy_false_isSome _ hd], by simp⟩
    · rw [Bool.not_eq_true] at ht
      simp only [ht, Bool.false_eq_true, if_false, clearInvalidReminder, hd,
        Bool.false_or]
      exact ⟨fun _ => strFalsy_false_isSome _ hd,
        fun _ => ⟨strFalsy_false_isSome _ hd, strFalsy_false_isSome _ ht⟩⟩

/-- Witness for C1 at a concrete input: the schedule invariant implications
are discharged on a fully-set triple. -/
theorem applyScheduleInvariants_invariant_witness :
    (applyScheduleInvariants
      { dueDate := some "2024-05-06", time := some "09:30", reminder := none }).dueDate.isSome = true ∧
    (applyScheduleInvariants
      { dueDate := some "2024-05-06", time := some "09:30", reminder := none }).time.isSome = true :=
  ⟨(applyScheduleInvariants_invariant
      { dueDate := some "2024-05-06", time := some "09:30", reminder := none }).1
      (by decide),
    by decide⟩

/-! ## C2: idempotence of the normalizer -/

theorem strFalsy_false_exists (v : Option String) (h : strFalsy v = false) :
    ∃ s, v = some s ∧ s ≠ "" := by
  cases v with
  | none => exact absurd h (by simp [strFalsy])
  | some s =>
    refine ⟨s, rfl, ?_⟩
    simpa [strFalsy] using h

theorem strFalsy_matched_date (d : String) (h : matchesDatePattern d = true) :
    strFalsy (some d) = false := by
  simpa [strFalsy] using matchesDatePattern_ne_empty d h

theorem strFalsy_matched_time (t : String) (h : matchesTimePattern t = true) :
    strFalsy (some t) = false := by
  simpa [strFalsy] using matchesTimePattern_ne_empty t h

/-- Every output of `applyScheduleInvariants` has one of three shapes:
fully cleared, date only, or date and time with a normalized reminder. -/
theorem applyScheduleInvariants_cases (f : ScheduleFields) :
    applyScheduleInvariants f = { dueDate := none, time := none, reminder := none } ∨
    (∃ d, applyScheduleInvariants f = { dueDate := some d, time := none, reminder := none } ∧
      matchesDatePattern d = true) ∨
    (∃ d t r, applyScheduleInvariants f =
        { dueDate := some d, time := some t, reminder := r } ∧
      matchesDatePattern d = true ∧ matchesTimePattern t = true ∧
      normalizeReminder r = r) := by
  unfold applyScheduleInvariants
  by_cases hd : strFalsy (normalizeDueDate f.dueDate) = true
  · left
    simp [hd]
  · rw [Bool.not_eq_true] at hd
    obtain ⟨ds, hds, _⟩ := strFalsy_false_exists _ hd
    have hdm : matchesDatePattern ds = true := normalizeDueDate_out f.dueDate ds hds
    by_cases ht : strFalsy (normalizeTime f.time) = true
    · right; left
      exact ⟨ds, by simp [hd, ht, hds, strFalsy_matched_date ds hdm], hdm⟩
    · rw [Bool.not_eq_true] at ht
      obtain ⟨ts, hts, _⟩ := strFalsy_false_exists _ ht
      have htm : matchesTimePattern ts = true := normalizeTime_out f.time ts hts
      right; right
      refine ⟨ds, ts, normalizeReminder f.reminder, ?_, hdm, htm,
        normalizeReminder_idem f.reminder⟩
      simp only [hd, Bool.false_eq_true, if_false, ht, clearInvalidReminder,
        Bool.false_or, hds, hts, strFalsy_matched_date ds hdm,
        strFalsy_matched_time ts htm, Bool.or_self]

theorem applyScheduleInvariants_fixed_none :
    applyScheduleInvariants { dueDate := none, time := none, reminder := none } =
      { dueDate := none, time := none, reminder := none } := rfl

theorem applyScheduleInvariants_fixed_dateOnly (d : String)
    (hd : matchesDatePattern d = true) :
    applyScheduleInvariants { dueDate := some d, time := none, reminder := none } =
      { dueDate := some d, time := none, reminder := none } := by
  unfold applyScheduleInvariants
  simp [normalizeDueDate_fixed d hd, strFalsy_matched_date d hd, normalizeTime,
    normalizeReminder, strFalsy, matchesDatePattern_ne_empty d hd]

/-- On a valid date and valid time, the normalizer keeps both and
normalizes the reminder. -/
theorem applyScheduleInvariants_full (d t : String) (r : TaskReminder)
    (hd : matchesDatePattern d = true) (ht : matchesTimePattern t = true) :
    applyScheduleInvariants { dueDate := some d, time := some t, reminder := r } =
      { dueDate := some d, time := some t, reminder := normalizeReminder r } := by
  unfold applyScheduleInvariants
  simp [normalizeDueDate_fixed d hd, normalizeTime_fixed t ht,
    strFalsy_matched_date d hd, strFalsy_matched_time t ht,
    clearInvalidReminder]

theorem applyScheduleInvariants_fixed_full (d t : String) (r : TaskReminder)
    (hd : matchesDatePattern d = true) (ht : matchesTimePattern t = true)
    (hr : normalizeReminder r = r) :
    applyScheduleInvariants { dueDate := some d, time := some t, reminder := r } =
      { dueDate := some d, time := some t, reminder := r } := by
  rw [applyScheduleInvariants_full d t r hd ht, hr]

/-- C2: the schedule normalizer is idempotent. -/
theorem applyScheduleInvariants_idem (f : ScheduleFields) :
    applyScheduleInvariants (applyScheduleInvariants f) =
      applyScheduleInvariants f := by
  rcases applyScheduleInvariants_cases f with h | ⟨d, h, hd⟩ | ⟨d, t, r, h, hd, ht, hr⟩
  · rw [h]; exact applyScheduleInvariants_fixed_none
  · rw [h]; exact applyScheduleInvariants_fixed_dateOnly d hd
  · rw [h]; exact applyScheduleInvariants_fixed_full d t r hd ht hr

/-! ## C8: a reminder update without date/time only clears the reminder -/

/-- C8: when `dueDate` or `time` is absent, `DRAFT_SET_REMINDER` returns
the state unchanged except that the reminder is forced to `null`. -/
theorem reduceSchedule_reminder_rejected (state : ScheduleFields)
    (r : TaskReminder) (today : String)
    (h : state.dueDate = none ∨ state.time = none) :
    reduceSchedule state (.setReminder r) today =
      { state with reminder := none } := by
  unfold reduceSchedule
  have hcond : (strFalsy state.dueDate || strFalsy state.time) = true := by
    rcases h with h | h <;> simp [h, strFalsy]
  simp [hcond]

/-- Witness for C8: a concrete state with no due date keeps its fields and
gets a `null` reminder. -/
theorem reduceSchedule_reminder_rejected_witness :
    reduceSchedule { dueDate := none, time := some "09:30", reminder := none }
        (.setReminder (some ⟨10⟩)) "2024-05-06" =
      { dueDate := none, time := some "09:30", reminder := none } :=
  reduceSchedule_reminder_rejected
    { dueDate := none, time := some "09:30", reminder := none }
    (some ⟨10⟩) "2024-05-06" (Or.inl rfl)

/-! ## C10: setting a valid time with no due date defaults the date -/

/-- C10: with `dueDate` absent, `DRAFT_SET_TIME` with a syntactically valid
`HH:mm` time keeps the new time and defaults `dueDate` to the reducer's
`today` parameter. -/
theorem reduceSchedule_setTime_defaults_today (state : ScheduleFields)
    (tm today : String)
    (hstate : state.dueDate = none)
    (htm : matchesTimePattern tm = true)
    (htoday : matchesDatePattern today = true) :
    (reduceSchedule state (.setTime (some tm)) today).dueDate = some today ∧
    (reduceSchedule state (.setTime (some tm)) today).time = some tm := by
  have step : reduceSchedule state (.setTime (some tm)) today =
      applyScheduleInvariants
        { dueDate := state.dueDate.orElse (fun _ => normalizeDueDate (some today))
          time := normalizeTime (some tm)
          reminder := state.reminder } := by
    simp only [reduceSchedule]
    rw [if_neg (by rw [normalizeTime_fixed tm htm, strFalsy_matched_time tm htm]; simp)]
  rw [step, hstate]
  simp only [Option.orElse]
  rw [normalizeDueDate_fixed today htoday, normalizeTime_fixed tm htm]
  rw [applyScheduleInvariants_full today tm state.reminder htoday htm]
  exact ⟨rfl, rfl⟩

/-- Witness for C10 at a concrete input. -/
theorem reduceSchedule_setTime_defaults_today_witness :
    (reduceSchedule { dueDate := none, time := none, reminder := none }
        (.setTime (some "09:30")) "2024-05-06").dueDate = some "2024-05-06" ∧
    (reduceSchedule { dueDate := none, time := none, reminder := none }
        (.setTime (some "09:30")) "2024-05-06").time = some "09:30" :=
  reduceSchedule_setTime_defaults_today
    { dueDate := none, time := none, reminder := none }
    "09:30" "2024-05-06" rfl (by decide) (by decide)

/-! ## Action templates and bindings (`src/types/models.ts`) -/

/-- The `kind` union of `UrlScheme` (`'url' | 'script'`). -/
inductive SchemeKind where
  | url
  | script
deriving DecidableEq

/-- The declared parameter type of a scheme (`'string' | 'number'`). -/
inductive ParamType where
  | string
  | number
deriving DecidableEq

/-- `UrlScheme` from `models.ts` (the action template): `kind` is an
optional field (`kind?`), missing on legacy records; the code treats a
missing kind as `url`. -/
structure UrlScheme where
  id : String
  name : String
  icon : String
  template : String
  kind : Option SchemeKind
  paramType : ParamType
deriving DecidableEq

/-- `TaskActionBinding` from `models.ts`. -/
structure TaskActionBinding where
  schemeId : String
  params : List String
deriving DecidableEq

/-! ## `src/utils/actionEngine.ts` -/

/-- The `'{param}'` placeholder, as a character list. -/
def paramHole : List Char := "{param}".data

/-- Split a string at the first `{param}` occurrence: `some (pre, post)`
with the subject equal to `pre ++ paramHole ++ post`, or `none` when the
placeholder does not occur. -/
def findHoleSplit : List Char → Option (List Char × List Char)
  | [] => none
  | c :: rest =>
    if paramHole.isPrefixOf (c :: rest) then
      some ([], (c :: rest).drop paramHole.length)
    else
      match findHoleSplit rest with
      | none => none
      | some (pre, post) => some (c :: pre, post)

/-- ECMAScript GetSubstitution for a string-pattern `replace` call whose
matched text is `{param}`: inside the replacement value, `$$` yields `$`,
`$&` yields the matched `{param}`, a dollar followed by a backquote
(code point 96) yields the part of the subject before the match (`pre`),
a dollar followed by an apostrophe (code point 39) yields the part after
it (`post`); any other `$` sequence is left as-is (a string pattern has
no capture groups). -/
def expandDollar (pre post : List Char) : List Char → List Char
  | [] => []
  | c :: rest =>
    if c = '$' then
      match rest with
      | [] => [c]
      | d :: rest2 =>
        if d = '$' then '$' :: expandDollar pre post rest2
        else if d = '&' then paramHole ++ expandDollar pre post rest2
        else if d = Char.ofNat 96 then pre ++ expandDollar pre post rest2
        else if d = Char.ofNat 39 then post ++ expandDollar pre post rest2
        else c :: d :: expandDollar pre post rest2
    else c :: expandDollar pre post rest

/-- `url.replace('{param}', param)`: replace the first occurrence of the
placeholder by the parameter value with GetSubstitution applied to it;
leave the string unchanged when there is no occurrence. -/
def replaceFirstHole (s repl : List Char) : List Char :=
  match findHoleSplit s with
  | none => s
  | some (pre, post) => pre ++ expandDollar pre post repl ++ post

/-- Literal first-occurrence replacement: the special case of
`replaceFirstHole` for a replacement value containing no `$`
(`replaceFirstHole_eq_lit`), used to structure the positional-replacement
proofs. -/
def replaceFirstLit (s repl : List Char) : List Char :=
  match s with
  | [] => []
  | c :: rest =>
    if paramHole.isPrefixOf (c :: rest) then
      repl ++ (c :: rest).drop paramHole.length
    else
      c :: replaceFirstLit rest repl

/-- `buildActionUrl` from `actionEngine.ts`:
`params.reduce((url, param) => url.replace('{param}', param), template)`. -/
def buildActionUrl (template : String) (params : List String) : String :=
  ⟨params.foldl (fun url p => replaceFirstHole url p.data) template.data⟩

/-- The error cases `executeTaskAction` can throw. -/
inductive ActionError where
  | schemeNotFound
  | scriptPathEmpty
  | scriptRequiresTauri
  | urlEmpty
deriving DecidableEq

/-- The observable outcome of `executeTaskAction`: a thrown error, a
`run_script` invocation, or opening a URL (via the Tauri shell or
`window.location.href`; both are modelled as `openUrl`). -/
inductive ExecOutcome where
  | error (e : ActionError)
  | runScript (path : String)
  | openUrl (url : String)
deriving DecidableEq

/-- `executeTaskAction` from `actionEngine.ts`, with the ambient
`isTauri()` environment test passed in as `tauri`. -/
def executeTaskAction (binding : TaskActionBinding) (scheme : Option UrlScheme)
    (tauri : Bool) : ExecOutcome :=
  match scheme with
  | none => .error .schemeNotFound
  | some scheme =>
    if scheme.kind = some SchemeKind.script then
      let scriptPath := jsTrim (binding.params.headD scheme.template)
      if scriptPath = "" then .error .scriptPathEmpty
      else if !tauri then .error .scriptRequiresTauri
      else .runScript scriptPath
    else
      let finalUrl := buildActionUrl scheme.template binding.params
      if finalUrl = "" then .error .urlEmpty
      else .openUrl finalUrl

/-! ## `src/components/modals/ActionPickerModal.tsx`: expected arity -/

/-- Fuel-driven count of non-overlapping `{param}` occurrences, scanning
left to right (the fuel is an upper bound on the scan length, so that the
function is structurally recursive and computes by reduction). -/
def countHolesFuel : Nat → List Char → Nat
  | 0, _ => 0
  | _ + 1, [] => 0
  | fuel + 1, c :: rest =>
    if paramHole.isPrefixOf (c :: rest) then
      countHolesFuel fuel ((c :: rest).drop paramHole.length) + 1
    else
      countHolesFuel fuel rest

/-- `(scheme.template.match(/\{param\}/g) ?? []).length`. -/
def countHoles (s : String) : Nat :=
  countHolesFuel s.data.length s.data

/-- `getExpectedParamCount` from `ActionPickerModal.tsx`: `0` with no
scheme, `1` for `script` kind, else the number of `{param}` occurrences. -/
def getExpectedParamCount : Option UrlScheme → Nat
  | none => 0
  | some scheme =>
    if scheme.kind = some SchemeKind.script then 1
    else countHoles scheme.template

/-- `normalizeParams` from `ActionPickerModal.tsx`:
`Array.from({length: expectedCount}, (_, i) => params?.[i] ?? '')`. -/
def normalizeParams (scheme : Option UrlScheme) (params : List String) :
    List String :=
  (List.range (getExpectedParamCount scheme)).map (fun i => params.getD i "")

/-! ## Spec model of positional placeholder replacement (§4.3)

The spec describes resolution as replacing each `{param}` occurrence of
the template left-to-right with the corresponding positional parameter
value.  `substPosFuel` scans the original template once, greedily, and
substitutes the i-th occurrence with the i-th parameter (occurrences with
no corresponding parameter are kept; excess parameters are ignored). -/

/-- Positional substitution over the original template, fuel-driven. -/
def substPosFuel : Nat → List Char → List (List Char) → List Char
  | 0, s, _ => s
  | _ + 1, [], _ => []
  | fuel + 1, c :: rest, ps =>
    if paramHole.isPrefixOf (c :: rest) then
      match ps with
      | [] => c :: substPosFuel fuel rest []
      | p :: tl => p ++ substPosFuel fuel ((c :: rest).drop paramHole.length) tl
    else
      c :: substPosFuel fuel rest ps

/-- The spec's `resolve` string algorithm for `url` kind: replace each
`{param}` occurrence left-to-right with the corresponding positional
parameter value. -/
def specBuildActionUrl (template : String) (params : List String) : String :=
  ⟨substPosFuel template.data.length template.data (params.map String.data)⟩

/-- A character list containing no brace characters. -/
def braceFreeChars (l : List Char) : Bool :=
  l.all (fun c => !(c == '{') && !(c == '}'))

/-- A string containing no brace characters. -/
def braceFreeStr (s : String) : Bool :=
  braceFreeChars s.data

/-- A character list containing no dollar sign (so that GetSubstitution
inserts it verbatim). -/
def dollarFreeChars (l : List Char) : Bool :=
  l.all (fun c => !(c == '$'))

/-- A string containing no dollar sign. -/
def dollarFreeStr (s : String) : Bool :=
  dollarFreeChars s.data

/-- Fuel-driven scan checking that every brace character of the template
belongs to a `{param}` occurrence of the greedy left-to-right scan. -/
def templateOkFuel : Nat → List Char → Bool
  | 0, s => s.isEmpty
  | _ + 1, [] => true
  | fuel + 1, c :: rest =>
    if paramHole.isPrefixOf (c :: rest) then
      templateOkFuel fuel ((c :: rest).drop paramHole.length)
    else
      (!(c == '{') && !(c == '}')) && templateOkFuel fuel rest

/-- Every brace of the template belongs to a `{param}` occurrence. -/
def templateOk (s : String) : Bool :=
  templateOkFuel s.data.length s.data

/-! ## Lemmas for sequential vs positional replacement -/

theorem paramHole_head (c : Char) (l : List Char)
    (h : paramHole.isPrefixOf (c :: l) = true) : c = '{' := by
  have hp : paramHole = ['{', 'p', 'a', 'r', 'a', 'm', '}'] := rfl
  rw [hp] at h
  simp only [List.isPrefixOf, Bool.and_eq_true, beq_iff_eq] at h
  exact h.1.symm

theorem substPosFuel_nil_params (fuel : Nat) :
    ∀ s : List Char, s.length ≤ fuel → substPosFuel fuel s [] = s := by
  induction fuel with
  | zero =>
    intro s hs
    rfl
  | succ fuel ih =>
    intro s hs
    cases s with
    | nil => rfl
    | cons c rest =>
      simp only [substPosFuel]
      by_cases h : paramHole.isPrefixOf (c :: rest) = true
      · simp only [h, if_true]
        rw [ih rest (by simpa using Nat.le_of_succ_le_succ hs)]
      · rw [Bool.not_eq_true] at h
        simp only [h, Bool.false_eq_true, if_false]
        rw [ih rest (by simpa using Nat.le_of_succ_le_succ hs)]

theorem expandDollar_dollarFree (p : List Char) (hp : dollarFreeChars p = true) :
    ∀ pre post : List Char, expandDollar pre post p = p := by
  induction p with
  | nil => intro pre post; rfl
  | cons c rest ih =>
    intro pre post
    have hc : ¬ c = '$' := by
      have := (List.all_eq_true.mp hp) c (List.mem_cons_self c rest)
      simpa using this
    have hrest : dollarFreeChars rest = true := by
      simp only [dollarFreeChars, List.all_cons, Bool.and_eq_true] at hp
      exact hp.2
    unfold expandDollar
    rw [if_neg hc, ih hrest]

/-- With a dollar-free replacement value, GetSubstitution inserts the
value verbatim, so `replaceFirstHole` is literal replacement. -/
theorem replaceFirstHole_eq_lit (p : List Char) (hp : dollarFreeChars p = true) :
    ∀ s : List Char, replaceFirstHole s p = replaceFirstLit s p := by
  intro s
  induction s with
  | nil => rfl
  | cons c rest ih =>
    by_cases h : paramHole.isPrefixOf (c :: rest) = true
    · have hsplit : findHoleSplit (c :: rest) =
          some ([], (c :: rest).drop paramHole.length) := by
        unfold findHoleSplit
        rw [if_pos h]
      unfold replaceFirstHole replaceFirstLit
      rw [hsplit, if_pos h]
      dsimp only
      rw [expandDollar_dollarFree p hp]
      simp
    · cases hr : findHoleSplit rest with
      | none =>
        have hsplit : findHoleSplit (c :: rest) = none := by
          unfold findHoleSplit
          rw [if_neg h, hr]
        have hrest : replaceFirstHole rest p = rest := by
          unfold replaceFirstHole
          rw [hr]
        have hthis : replaceFirstHole (c :: rest) p = c :: rest := by
          unfold replaceFirstHole
          rw [hsplit]
        rw [hthis]
        unfold replaceFirstLit
        rw [if_neg h, ← ih, hrest]
      | some pp =>
        obtain ⟨pre, post⟩ := pp
        have hsplit : findHoleSplit (c :: rest) = some (c :: pre, post) := by
          unfold findHoleSplit
          rw [if_neg h, hr]
        have hrest : replaceFirstHole rest p = pre ++ p ++ post := by
          unfold replaceFirstHole
          rw [hr]
          dsimp only
          rw [expandDollar_dollarFree p hp]
        have hthis : replaceFirstHole (c :: rest) p = (c :: pre) ++ p ++ post := by
          unfold replaceFirstHole
          rw [hsplit]
          dsimp only
          rw [expandDollar_dollarFree p hp]
        rw [hthis]
        unfold replaceFirstLit
        rw [if_neg h, ← ih, hrest]
        simp

theorem foldl_replaceFirstHole_eq_lit :
    ∀ (ps : List (List Char)), (∀ p ∈ ps, dollarFreeChars p = true) →
    ∀ s : List Char,
      List.foldl (fun u p => replaceFirstHole u p) s ps =
        List.foldl (fun u p => replaceFirstLit u p) s ps := by
  intro ps
  induction ps with
  | nil => intro _ s; rfl
  | cons p tl ih =>
    intro hps s
    simp only [List.foldl_cons]
    rw [replaceFirstHole_eq_lit p (hps p (List.mem_cons_self p tl)) s]
    exact ih (fun q hq => hps q (List.mem_cons_of_mem p hq)) _

theorem foldl_replaceFirstLit_nil (ps : List (List Char)) :
    List.foldl (fun u p => replaceFirstLit u p) [] ps = [] := by
  induction ps with
  | nil => rfl
  | cons p tl ih => simpa [replaceFirstLit] using ih

theorem replaceFirstLit_append_braceFree (p : List Char)
    (hp : braceFreeChars p = true) (d q : List Char) :
    replaceFirstLit (p ++ d) q = p ++ replaceFirstLit d q := by
  induction p with
  | nil => rfl
  | cons a p ih =>
    have ha : ¬ (a == '{') = true := by
      have := (List.all_eq_true.mp hp) a (List.mem_cons_self a p)
      simp only [Bool.and_eq_true, Bool.not_eq_eq_eq_not, Bool.not_true] at this
      simp [this.1]
    have hnp : ∀ l : List Char, paramHole.isPrefixOf (a :: l) = false := by
      intro l
      rw [Bool.eq_false_iff]
      intro hcontra
      exact ha (by simp [paramHole_head a l hcontra])
    have hp' : braceFreeChars p = true := by
      simp only [braceFreeChars, List.all_cons, Bool.and_eq_true] at hp
      exact hp.2
    simp only [List.cons_append, replaceFirstLit, hnp, Bool.false_eq_true,
      if_false]
    exact congrArg (List.cons a) (ih hp')

theorem foldl_replaceFirstLit_append (p : List Char)
    (hp : braceFreeChars p = true) :
    ∀ (ps : List (List Char)) (d : List Char),
      List.foldl (fun u q => replaceFirstLit u q) (p ++ d) ps =
        p ++ List.foldl (fun u q => replaceFirstLit u q) d ps := by
  intro ps
  induction ps with
  | nil => intro d; rfl
  | cons q tl ih =>
    intro d
    simp only [List.foldl_cons]
    rw [replaceFirstLit_append_braceFree p hp d q, ih]

/-- Sequential literal first-occurrence replacement coincides with
positional replacement when the template's braces all belong to
placeholders and no parameter value contains a brace. -/
theorem foldl_eq_substPos (fuel : Nat) :
    ∀ (s : List Char) (ps : List (List Char)),
      s.length ≤ fuel →
      templateOkFuel fuel s = true →
      (∀ p ∈ ps, braceFreeChars p = true) →
      List.foldl (fun u p => replaceFirstLit u p) s ps =
        substPosFuel fuel s ps := by
  induction fuel with
  | zero =>
    intro s ps hs _ _
    have hnil : s = [] := List.length_eq_zero.mp (Nat.le_zero.mp hs)
    subst hnil
    simpa [substPosFuel] using foldl_replaceFirstLit_nil ps
  | succ fuel ih =>
    intro s ps hs hok hps
    cases s with
    | nil => simpa [substPosFuel] using foldl_replaceFirstLit_nil ps
    | cons c rest =>
      cases ps with
      | nil =>
        simp only [List.foldl_nil]
        rw [substPosFuel_nil_params (fuel + 1) (c :: rest) hs]
      | cons p tl =>
        have hrest : rest.length ≤ fuel := by
          simpa using Nat.le_of_succ_le_succ hs
        by_cases h : paramHole.isPrefixOf (c :: rest) = true
        · have hok' : templateOkFuel fuel ((c :: rest).drop paramHole.length) = true := by
            unfold templateOkFuel at hok
            simpa [h] using hok
          have hdrop : ((c :: rest).drop paramHole.length).length ≤ fuel := by
            rw [List.length_drop]
            have h7 : paramHole.length = 7 := rfl
            rw [h7]
            simp only [List.length_cons]
            omega
          have hstep : replaceFirstLit (c :: rest) p =
              p ++ (c :: rest).drop paramHole.length := by
            simp [replaceFirstLit, h]
          simp only [List.foldl_cons, hstep, substPosFuel, h, if_true]
          rw [foldl_replaceFirstLit_append p
            (hps p (List.mem_cons_self p tl)) tl _]
          rw [ih _ tl hdrop hok' (fun q hq => hps q (List.mem_cons_of_mem p hq))]
        · rw [Bool.not_eq_true] at h
          have hok' : templateOkFuel fuel rest = true := by
            unfold templateOkFuel at hok
            simp only [h, Bool.false_eq_true, if_false, Bool.and_eq_true] at hok
            exact hok.2
          have hc : braceFreeChars [c] = true := by
            unfold templateOkFuel at hok
            simp only [h, Bool.false_eq_true, if_false, Bool.and_eq_true] at hok
            simp [braceFreeChars, hok.1.1, hok.1.2]
          have hstep : replaceFirstLit (c :: rest) p =
              c :: replaceFirstLit rest p := by
            simp [replaceFirstLit, h]
          simp only [List.foldl_cons, hstep, substPosFuel, h, Bool.false_eq_true,
            if_false]
          have : (c :: replaceFirstLit rest p) = [c] ++ replaceFirstLit rest p := rfl
          rw [this, foldl_replaceFirstLit_append [c] hc tl _]
          have hfold : List.foldl (fun u q => replaceFirstLit u q)
              (replaceFirstLit rest p) tl =
              List.foldl (fun u q => replaceFirstLit u q) rest (p :: tl) := rfl
          rw [hfold, ih rest (p :: tl) hrest hok' hps]
          rfl

/-! ## C5: positional replacement (corrected) -/

/-- Counterexample for C5 as stated, on two independent inputs.  On the
template `"{param}{param}"` with parameters `["{param}", "B"]` (matching
arity), the code's sequential first-occurrence replacement yields
`"B{param}"`, while left-to-right positional replacement yields
`"{param}B"`.  And on `"{param}"` with `["$$"]`, GetSubstitution
collapses the value to `"$"`, while positional replacement inserts the
value `"$$"` itself. -/
theorem buildActionUrl_positional_counterexample :
    (buildActionUrl "{param}{param}" ["{param}", "B"] = "B{param}" ∧
      specBuildActionUrl "{param}{param}" ["{param}", "B"] = "{param}B") ∧
    (buildActionUrl "{param}" ["$$"] = "$" ∧
      specBuildActionUrl "{param}" ["$$"] = "$$") ∧
    buildActionUrl "{param}{param}" ["{param}", "B"] ≠
      specBuildActionUrl "{param}{param}" ["{param}", "B"] ∧
    buildActionUrl "{param}" ["$$"] ≠ specBuildActionUrl "{param}" ["$$"] := by
  refine ⟨⟨by decide, by decide⟩, ⟨by decide, by decide⟩, by decide, by decide⟩

/-- C5 amended: resolution folds over the parameters, each replacing the
first `{param}` occurrence of the current string with the value expanded
by the JavaScript replacement-string rules; when every brace of the
template belongs to a placeholder and no parameter value contains a brace
or a dollar sign, this coincides with left-to-right positional
replacement, and in particular the two cited examples hold. -/
theorem buildActionUrl_positional_amended :
    buildActionUrl "tel://{param}" ["12345"] = "tel://12345" ∧
    buildActionUrl "mailto:{param}?subject={param}" ["a@b.com", "Hi"] =
      "mailto:a@b.com?subject=Hi" ∧
    ∀ (template : String) (params : List String),
      templateOk template = true →
      (∀ p ∈ params, braceFreeStr p = true ∧ dollarFreeStr p = true) →
      buildActionUrl template params = specBuildActionUrl template params := by
  refine ⟨by decide, by decide, ?_⟩
  intro template params hok hps
  unfold buildActionUrl specBuildActionUrl
  have hmap : params.foldl (fun url p => replaceFirstHole url p.data)
      template.data =
      List.foldl (fun u p => replaceFirstHole u p) template.data
        (params.map String.data) := by
    rw [List.foldl_map]
  have hdollar : ∀ p ∈ params.map String.data, dollarFreeChars p = true := by
    intro p hp
    obtain ⟨q, hq, rfl⟩ := List.mem_map.mp hp
    exact (hps q hq).2
  have hbrace : ∀ p ∈ params.map String.data, braceFreeChars p = true := by
    intro p hp
    obtain ⟨q, hq, rfl⟩ := List.mem_map.mp hp
    exact (hps q hq).1
  rw [hmap, foldl_replaceFirstHole_eq_lit (params.map String.data) hdollar
    template.data]
  rw [foldl_eq_substPos template.data.length template.data
    (params.map String.data) (Nat.le_refl _) hok hbrace]

/-- Witness for the amended C5: the equivalence applied at a concrete
template and parameter list, hypotheses discharged by evaluation. -/
theorem buildActionUrl_positional_amended_witness :
    buildActionUrl "x{param}y" ["A"] = specBuildActionUrl "x{param}y" ["A"] :=
  buildActionUrl_positional_amended.2.2 "x{param}y" ["A"] (by decide)
    (by decide)

/-! ## C4: parameter arity (corrected) -/

/-- A concrete `url`-kind scheme with a one-placeholder template, used to
probe arity behaviour. -/
def telScheme : UrlScheme :=
  { id := "s1", name := "Tel", icon := "", template := "tel://{param}",
    kind := some SchemeKind.url, paramType := ParamType.string }

/-- Counterexample for C4 as stated: a `url`-kind scheme whose template
expects one parameter, resolved with an empty parameter list, does not
fail with any arity error — it opens the template with the placeholder
left in place. -/
theorem executeTaskAction_no_arity_error :
    getExpectedParamCount (some telScheme) = 1 ∧
    (([] : List String).length ≠ 1) ∧
    executeTaskAction { schemeId := "s1", params := [] } (some telScheme) true =
      ExecOutcome.openUrl "tel://{param}" := by
  refine ⟨by decide, by decide, by decide⟩

/-- C4 amended: action resolution performs no arity check and raises no
arity error — a `url`-kind action resolves for every parameter list length
(either opening the substituted URL or failing only on an empty result);
arity agreement is instead enforced upstream by the action picker, whose
`normalizeParams` pads or truncates a binding's parameters to exactly the
template's expected arity. -/
theorem actionResolution_arity_amended :
    (∀ (scheme : Option UrlScheme) (params : List String),
      (normalizeParams scheme params).length = getExpectedParamCount scheme) ∧
    ∀ (binding : TaskActionBinding) (scheme : UrlScheme) (tauri : Bool),
      scheme.kind ≠ some SchemeKind.script →
      (executeTaskAction binding (some scheme) tauri =
          ExecOutcome.openUrl (buildActionUrl scheme.template binding.params) ∨
        executeTaskAction binding (some scheme) tauri =
          ExecOutcome.error ActionError.urlEmpty) := by
  constructor
  · intro scheme params
    unfold normalizeParams
    rw [List.length_map, List.length_range]
  · intro binding scheme tauri hkind
    unfold executeTaskAction
    simp only [hkind, if_false]
    by_cases h : buildActionUrl scheme.template binding.params = ""
    · right; simp [h]
    · left; simp [h]

/-- Witness for the amended C4: the no-arity-error disjunction applied at
a concrete mismatched binding. -/
theorem actionResolution_arity_amended_witness :
    executeTaskAction { schemeId := "s1", params := [] } (some telScheme) true =
      ExecOutcome.openUrl
        (buildActionUrl telScheme.template ([] : List String)) ∨
    executeTaskAction { schemeId := "s1", params := [] } (some telScheme) true =
      ExecOutcome.error ActionError.urlEmpty :=
  actionResolution_arity_amended.2 { schemeId := "s1", params := [] }
    telScheme true (by decide)

/-! ## The due-action poller (`src/App.tsx`, `runDueScriptTasks`)

`App.tsx` reads each task's `id`, `completed`, `date`, `time` and
`actions` fields (the `Task` shape of the models revision it was written
against).  The ambient pieces of the loop are passed explicitly:
`execOk` tells whether the host-side dispatch of a given dedupe key
succeeds (the `invoke('run_script', ...)` promise resolving), and
`dueAtMs` is `new Date(date + 'T' + time + ':00').getTime()` — `none`
standing for an unparsable (`NaN`) result.  The poller only runs under
`isTauri()`, so `executeTaskAction` is evaluated with `tauri = true`. -/

/-- The task fields the poller reads. -/
structure PollerTask where
  id : String
  completed : Bool
  date : Option String
  time : Option String
  actions : Option (List TaskActionBinding)
deriving DecidableEq

/-- One dispatch attempt recorded by a scanning pass: the dedupe key, the
resolved scheme, the binding, and whether the dispatch succeeded. -/
structure DispatchEvent where
  key : String
  scheme : UrlScheme
  binding : TaskActionBinding
  ok : Bool
deriving DecidableEq

/-- The poller state threaded through a pass: the in-memory dedupe set
(`executedScriptTaskKeysRef.current`) and the dispatch attempts made. -/
structure PassState where
  seen : List String
  dispatched : List DispatchEvent
deriving DecidableEq

/-- The dedupe key
`` `${task.id}|${task.date}|${task.time}|${scheme.id}` ``. -/
def mkRunKey (t : PollerTask) (dt tm : String) (scheme : UrlScheme) : String :=
  t.id ++ "|" ++ dt ++ "|" ++ tm ++ "|" ++ scheme.id

/-- Whether `await executeTaskAction(action, scheme)` succeeds in the
poller: the pure engine must reach `run_script`, and the host execution
(abstracted by `execOk`) must succeed. -/
def dispatchOk (execOk : String → Bool) (action : TaskActionBinding)
    (scheme : UrlScheme) (key : String) : Bool :=
  match executeTaskAction action (some scheme) true with
  | .runScript _ => execOk key
  | _ => false

/-- The inner loop body of `runDueScriptTasks` for one bound action:
resolve the scheme, skip non-`script` kinds, skip seen keys, otherwise
attempt dispatch and record the key as seen only on success. -/
def processAction (schemes : List UrlScheme) (execOk : String → Bool)
    (t : PollerTask) (dt tm : String) (st : PassState)
    (action : TaskActionBinding) : PassState :=
  match schemes.find? (fun s => s.id == action.schemeId) with
  | none => st
  | some scheme =>
    if scheme.kind ≠ some SchemeKind.script then st
    else
      if mkRunKey t dt tm scheme ∈ st.seen then st
      else
        { seen :=
            if dispatchOk execOk action scheme (mkRunKey t dt tm scheme) then
              mkRunKey t dt tm scheme :: st.seen
            else st.seen
          dispatched := st.dispatched ++
            [{ key := mkRunKey t dt tm scheme, scheme := scheme,
               binding := action,
               ok := dispatchOk execOk action scheme (mkRunKey t dt tm scheme) }] }

/-- The outer loop body of `runDueScriptTasks` for one task: skip
completed tasks, tasks with falsy date or time, unparsable due instants,
and tasks due in the future; otherwise fold over `task.actions ?? []`. -/
def processTask (schemes : List UrlScheme) (execOk : String → Bool)
    (dueAtMs : String → String → Option ℤ) (now : ℤ) (st : PassState)
    (t : PollerTask) : PassState :=
  if t.completed then st
  else
    match t.date, t.time with
    | some dt, some tm =>
      if dt = "" ∨ tm = "" then st
      else
        match dueAtMs dt tm with
        | none => st
        | some due =>
          if now < due then st
          else (t.actions.getD []).foldl (processAction schemes execOk t dt tm) st
    | _, _ => st

/-- One scanning pass of `runDueScriptTasks` over the task list, starting
from the dedupe set `seen`. -/
def runDueScriptTasks (tasks : List PollerTask) (schemes : List UrlScheme)
    (execOk : String → Bool) (dueAtMs : String → String → Option ℤ) (now : ℤ)
    (seen : List String) : PassState :=
  tasks.foldl (processTask schemes execOk dueAtMs now)
    { seen := seen, dispatched := [] }

/-! ## Pass invariants -/

/-- How the pass state may evolve across any number of steps: dispatch
events are appended, each new event targets a `script`-kind scheme and a
key unseen at the start, and the dedupe set gains exactly the keys of the
new successful events. -/
def StepInv (st st' : PassState) : Prop :=
  ∃ new, st'.dispatched = st.dispatched ++ new ∧
    (∀ e ∈ new, e.scheme.kind = some SchemeKind.script ∧ e.key ∉ st.seen) ∧
    (∀ k, k ∈ st'.seen ↔ k ∈ st.seen ∨ ∃ e ∈ new, e.key = k ∧ e.ok = true)

theorem stepInv_refl (st : PassState) : StepInv st st :=
  ⟨[], by simp, by simp, by simp⟩

theorem stepInv_trans (st st' st'' : PassState) (h1 : StepInv st st')
    (h2 : StepInv st' st'') : StepInv st st'' := by
  obtain ⟨n1, hd1, he1, hs1⟩ := h1
  obtain ⟨n2, hd2, he2, hs2⟩ := h2
  refine ⟨n1 ++ n2, by rw [hd2, hd1, List.append_assoc], ?_, ?_⟩
  · intro e he
    rcases List.mem_append.mp he with he | he
    · exact he1 e he
    · refine ⟨(he2 e he).1, fun hmem => (he2 e he).2 ?_⟩
      exact (hs1 e.key).mpr (Or.inl hmem)
  · intro k
    rw [hs2 k, hs1 k]
    constructor
    · rintro ((hk | ⟨e, he, hke⟩) | ⟨e, he, hke⟩)
      · exact Or.inl hk
      · exact Or.inr ⟨e, List.mem_append.mpr (Or.inl he), hke⟩
      · exact Or.inr ⟨e, List.mem_append.mpr (Or.inr he), hke⟩
    · rintro (hk | ⟨e, he, hke⟩)
      · exact Or.inl (Or.inl hk)
      · rcases List.mem_append.mp he with he | he
        · exact Or.inl (Or.inr ⟨e, he, hke⟩)
        · exact Or.inr ⟨e, he, hke⟩

theorem processAction_stepInv (schemes : List UrlScheme)
    (execOk : String → Bool) (t : PollerTask) (dt tm : String)
    (st : PassState) (action : TaskActionBinding) :
    StepInv st (processAction schemes execOk t dt tm st action) := by
  unfold processAction
  cases hfind : schemes.find? (fun s => s.id == action.schemeId) with
  | none => exact stepInv_refl st
  | some scheme =>
    dsimp only
    by_cases hkind : scheme.kind ≠ some SchemeKind.script
    · rw [if_pos hkind]
      exact stepInv_refl st
    · rw [if_neg hkind]
      by_cases hseen : mkRunKey t dt tm scheme ∈ st.seen
      · rw [if_pos hseen]
        exact stepInv_refl st
      · rw [if_neg hseen]
        refine ⟨[DispatchEvent.mk (mkRunKey t dt tm scheme) scheme action
          (dispatchOk execOk action scheme (mkRunKey t dt tm scheme))],
          rfl, ?_, ?_⟩
        · intro e he
          rw [List.mem_singleton] at he
          subst he
          exact ⟨Decidable.not_not.mp hkind, hseen⟩
        · intro k
          by_cases hok : dispatchOk execOk action scheme (mkRunKey t dt tm scheme) = true
          · rw [if_pos hok]
            simp only [List.mem_cons]
            constructor
            · rintro (rfl | hk)
              · exact Or.inr ⟨DispatchEvent.mk (mkRunKey t dt tm scheme) scheme
                  action (dispatchOk execOk action scheme (mkRunKey t dt tm scheme)),
                  Or.inl rfl, rfl, hok⟩
              · exact Or.inl hk
            · rintro (hk | ⟨e, he, hkey, _⟩)
              · exact Or.inr hk
              · rcases he with rfl | he
                · exact Or.inl hkey.symm
                · exact absurd he (List.not_mem_nil e)
          · rw [if_neg hok]
            constructor
            · exact fun hk => Or.inl hk
            · rintro (hk | ⟨e, he, hkey, hokk⟩)
              · exact hk
              · rw [List.mem_singleton] at he
                subst he
                exact absurd hokk hok

theorem foldl_stepInv {α : Type} (f : PassState → α → PassState)
    (hf : ∀ st a, StepInv st (f st a)) :
    ∀ (l : List α) (st : PassState), StepInv st (l.foldl f st) := by
  intro l
  induction l with
  | nil => intro st; exact stepInv_refl st
  | cons a l ih =>
    intro st
    exact stepInv_trans _ _ _ (hf st a) (ih (f st a))

theorem processTask_stepInv (schemes : List UrlScheme)
    (execOk : String → Bool) (dueAtMs : String → String → Option ℤ) (now : ℤ)
    (st : PassState) (t : PollerTask) :
    StepInv st (processTask schemes execOk dueAtMs now st t) := by
  unfold processTask
  by_cases hc : t.completed = true
  · rw [if_pos hc]
    exact stepInv_refl st
  · rw [if_neg hc]
    cases hdt : t.date with
    | none => exact stepInv_refl st
    | some dt =>
      cases htm : t.time with
      | none => exact stepInv_refl st
      | some tm =>
        dsimp only
        by_cases hempty : dt = "" ∨ tm = ""
        · rw [if_pos hempty]
          exact stepInv_refl st
        · rw [if_neg hempty]
          cases hdue : dueAtMs dt tm with
          | none => exact stepInv_refl st
          | some due =>
            dsimp only
            by_cases hnow : now < due
            · rw [if_pos hnow]
              exact stepInv_refl st
            · rw [if_neg hnow]
              exact foldl_stepInv _
                (processAction_stepInv schemes execOk t dt tm) _ st

theorem runDueScriptTasks_stepInv (tasks : List PollerTask)
    (schemes : List UrlScheme) (execOk : String → Bool)
    (dueAtMs : String → String → Option ℤ) (now : ℤ) (seen : List String) :
    StepInv { seen := seen, dispatched := [] }
      (runDueScriptTasks tasks schemes execOk dueAtMs now seen) :=
  foldl_stepInv _ (processTask_stepInv schemes execOk dueAtMs now) tasks _

/-! ## C7: only script-kind actions are auto-dispatched -/

/-- C7: every action the poller dispatches on a scanning pass resolves to
a scheme of `script` kind; `url`-kind actions are never auto-triggered. -/
theorem poller_dispatches_only_script (tasks : List PollerTask)
    (schemes : List UrlScheme) (execOk : String → Bool)
    (dueAtMs : String → String → Option ℤ) (now : ℤ) (seen : List String) :
    ∀ e ∈ (runDueScriptTasks tasks schemes execOk dueAtMs now seen).dispatched,
      e.scheme.kind = some SchemeKind.script := by
  intro e he
  obtain ⟨new, hd, hev, _⟩ :=
    runDueScriptTasks_stepInv tasks schemes execOk dueAtMs now seen
  rw [hd] at he
  simp only [List.nil_append] at he
  exact (hev e he).1

/-- A concrete `script`-kind scheme. -/
def runScheme : UrlScheme :=
  { id := "sc1", name := "Run", icon := "", template := "/default.sh",
    kind := some SchemeKind.script, paramType := ParamType.string }

/-- A concrete overdue task bound to `runScheme`. -/
def dueTask : PollerTask :=
  { id := "t1", completed := false, date := some "2024-01-02",
    time := some "03:04", actions := some [{ schemeId := "sc1", params := ["/x.sh"] }] }

/-- Witness for C7: on a concrete pass that dispatches once, the
dispatched event's scheme kind is `script`. -/
theorem poller_dispatches_only_script_witness :
    ({ key := "t1|2024-01-02|03:04|sc1", scheme := runScheme,
       binding := { schemeId := "sc1", params := ["/x.sh"] },
       ok := true } : DispatchEvent).scheme.kind = some SchemeKind.script :=
  poller_dispatches_only_script [dueTask] [runScheme] (fun _ => true)
    (fun _ _ => some 0) 0 []
    { key := "t1|2024-01-02|03:04|sc1", scheme := runScheme,
      binding := { schemeId := "sc1", params := ["/x.sh"] }, ok := true }
    (by decide)

/-! ## C3: dedupe behaviour of the poller (corrected) -/

/-- Counterexample for C3 as stated: with a failing executor, the key is
not recorded as seen (the code adds the key only after a successful
`await`), so a second scanning pass over the same occurrence dispatches
it again. -/
theorem poller_failed_dispatch_retried :
    (runDueScriptTasks [dueTask] [runScheme] (fun _ => false)
        (fun _ _ => some 0) 0 []).dispatched.map (fun e => e.key) =
      ["t1|2024-01-02|03:04|sc1"] ∧
    (runDueScriptTasks [dueTask] [runScheme] (fun _ => false)
        (fun _ _ => some 0) 0 []).seen = [] ∧
    (runDueScriptTasks [dueTask] [runScheme] (fun _ => false)
        (fun _ _ => some 0) 0
        (runDueScriptTasks [dueTask] [runScheme] (fun _ => false)
          (fun _ _ => some 0) 0 []).seen).dispatched.map (fun e => e.key) =
      ["t1|2024-01-02|03:04|sc1"] := by
  refine ⟨by decide, by decide, by decide⟩

/-- C3 amended: the poller attempts dispatch only for keys not yet seen,
records a key as seen exactly when its dispatch succeeds (so a failed
dispatch is retried on a later pass over the same occurrence), and a
successfully dispatched occurrence is never re-dispatched by a later pass
within the same process lifetime. -/
theorem poller_dedupe_amended (tasks : List PollerTask)
    (schemes : List UrlScheme) (execOk : String → Bool)
    (dueAtMs : String → String → Option ℤ) (now : ℤ) (seen : List String) :
    (∀ e ∈ (runDueScriptTasks tasks schemes execOk dueAtMs now seen).dispatched,
      e.key ∉ seen) ∧
    (∀ k, k ∈ (runDueScriptTasks tasks schemes execOk dueAtMs now seen).seen ↔
      k ∈ seen ∨
        ∃ e ∈ (runDueScriptTasks tasks schemes execOk dueAtMs now seen).dispatched,
          e.key = k ∧ e.ok = true) ∧
    (∀ (tasks2 : List PollerTask) (schemes2 : List UrlScheme)
        (execOk2 : String → Bool) (dueAtMs2 : String → String → Option ℤ)
        (now2 : ℤ),
      ∀ e2 ∈ (runDueScriptTasks tasks2 schemes2 execOk2 dueAtMs2 now2
          (runDueScriptTasks tasks schemes execOk dueAtMs now seen).seen).dispatched,
      ∀ e1 ∈ (runDueScriptTasks tasks schemes execOk dueAtMs now seen).dispatched,
        e1.ok = true → e2.key ≠ e1.key) := by
  obtain ⟨new, hd, hev, hseen⟩ :=
    runDueScriptTasks_stepInv tasks schemes execOk dueAtMs now seen
  simp only [List.nil_append] at hd
  subst hd
  refine ⟨fun e he => (hev e he).2, hseen, ?_⟩
  intro tasks2 schemes2 execOk2 dueAtMs2 now2 e2 he2 e1 he1 hok1 heq
  obtain ⟨new2, hd2, hev2, _⟩ :=
    runDueScriptTasks_stepInv tasks2 schemes2 execOk2 dueAtMs2 now2
      (runDueScriptTasks tasks schemes execOk dueAtMs now seen).seen
  rw [hd2] at he2
  simp only [List.nil_append] at he2
  have h2 : e2.key ∉ (runDueScriptTasks tasks schemes execOk dueAtMs now seen).seen :=
    (hev2 e2 he2).2
  exact h2 ((hseen e2.key).mpr (Or.inr ⟨e1, he1, heq.symm, hok1⟩))

/-- Witness for the amended C3: applied on a concrete pass whose single
dispatched key was not previously seen. -/
theorem poller_dedupe_amended_witness :
    ({ key := "t1|2024-01-02|03:04|sc1", scheme := runScheme,
       binding := { schemeId := "sc1", params := ["/x.sh"] },
       ok := true } : DispatchEvent).key ∉ ["other"] :=
  (poller_dedupe_amended [dueTask] [runScheme] (fun _ => true)
    (fun _ _ => some 0) 0 ["other"]).1
    { key := "t1|2024-01-02|03:04|sc1", scheme := runScheme,
      binding := { schemeId := "sc1", params := ["/x.sh"] }, ok := true }
    (by decide)

/-! ## Store state and `deleteScheme` (`src/store/useAppStore.ts`) -/

/-- `RepeatType` from `models.ts`. -/
inductive RepeatType where
  | daily
  | weekly
  | monthly
deriving DecidableEq

/-- `RepeatRule` from `models.ts`.  The TypeScript field `repeat` of a
task is called `repeatRule` here because `repeat` is reserved in Lean. -/
structure RepeatRule where
  type : RepeatType
  dayOfWeek : Option (List ℕ)
  dayOfMonth : Option (List ℕ)
deriving DecidableEq

/-- `Task` from `models.ts` (the store revision: `dueDate`/`time`
optional-nullable, tagged reminder). -/
structure Task where
  id : String
  listId : Option String
  title : String
  detail : Option String
  completed : Bool
  dueDate : Option String
  time : Option String
  reminder : TaskReminder
  repeatRule : Option RepeatRule
  actions : Option (List TaskActionBinding)
deriving DecidableEq

/-- `DraftTask` from `useAppStore.ts`. -/
structure DraftTask where
  title : String
  detail : String
  listId : Option String
  dueDate : Option String
  time : Option String
  reminder : TaskReminder
  repeatRule : Option RepeatRule
  actions : List TaskActionBinding
deriving DecidableEq

/-- The slice of the zustand `AppState` that `deleteScheme` updates
(`schemes`, `tasks`, `draftTask`; the other state fields are left
untouched by its `set` call). -/
structure StoreState where
  schemes : List UrlScheme
  tasks : List Task
  draftTask : DraftTask
deriving DecidableEq

/-- The state update of `deleteScheme(schemeId)` from `useAppStore.ts`
(the backend `delete_scheme` call is the persistence boundary and not
modelled): drop the scheme and filter every task's and the draft's
bindings. -/
def deleteScheme (schemeId : String) (s : StoreState) : StoreState :=
  { schemes := s.schemes.filter (fun scheme => scheme.id != schemeId)
    tasks := s.tasks.map (fun t =>
      { t with actions := t.actions.map (fun acts =>
          acts.filter (fun a => a.schemeId != schemeId)) })
    draftTask := { s.draftTask with
      actions := s.draftTask.actions.filter (fun a => a.schemeId != schemeId) } }

/-! ## C6: deleting a scheme removes all bindings referencing it -/

/-- C6: after `deleteScheme id`, no task carries an action whose
`schemeId` equals the deleted id. -/
theorem deleteScheme_no_dangling (s : StoreState) (schemeId : String) :
    ∀ t ∈ (deleteScheme schemeId s).tasks, ∀ acts, t.actions = some acts →
      ∀ a ∈ acts, a.schemeId ≠ schemeId := by
  intro t ht acts hacts a ha
  unfold deleteScheme at ht
  obtain ⟨t0, _, rfl⟩ := List.mem_map.mp ht
  cases h0 : t0.actions with
  | none =>
    rw [h0] at hacts
    exact absurd hacts (by simp)
  | some acts0 =>
    rw [h0] at hacts
    simp only [Option.map_some', Option.some.injEq] at hacts
    subst hacts
    have := (List.mem_filter.mp ha).2
    simpa using this

/-- A concrete store state: one scheme, one task bound to it plus to a
second scheme. -/
def sampleStore : StoreState :=
  { schemes := [telScheme]
    tasks := [{ id := "t1", listId := none, title := "A", detail := none,
                completed := false, dueDate := none, time := none,
                reminder := none, repeatRule := none,
                actions := some [{ schemeId := "s1", params := ["1"] },
                  { schemeId := "s2", params := ["2"] }] }]
    draftTask := { title := "", detail := "", listId := none, dueDate := none,
                   time := none, reminder := none, repeatRule := none,
                   actions := [] } }

/-- Witness for C6: in the concrete store, after deleting scheme `"s1"`
the surviving binding of the task does not reference `"s1"`. -/
theorem deleteScheme_no_dangling_witness :
    ({ schemeId := "s2", params := ["2"] } : TaskActionBinding).schemeId ≠ "s1" :=
  deleteScheme_no_dangling sampleStore "s1"
    { id := "t1", listId := none, title := "A", detail := none,
      completed := false, dueDate := none, time := none,
      reminder := none, repeatRule := none,
      actions := some [{ schemeId := "s2", params := ["2"] }] }
    (by decide) [{ schemeId := "s2", params := ["2"] }] (by decide)
    { schemeId := "s2", params := ["2"] } (by decide)

/-! ## Recurrence rollover (spec §4.2)

The recurrence computation runs in the Rust backend behind the
`toggle_task_completed` Tauri command (`src/utils/backendApi.ts` only
invokes it), so it is not under the TypeScript sources; the monthly rule
is modelled here from the spec's words. -/

/-- Modelled from the spec: a calendar date (year, month `1..12`,
day `1..31`); the backend recurrence code that manipulates dates is not
under `src/`. -/
structure CalendarDate where
  year : ℕ
  month : ℕ
  day : ℕ
deriving DecidableEq

/-- Modelled from the spec: Gregorian leap year. -/
def isLeapYear (y : ℕ) : Bool :=
  (y % 4 == 0 && y % 100 != 0) || y % 400 == 0

/-- Modelled from the spec: the number of days of a month ("that month's
last valid day"). -/
def daysInMonth (y m : ℕ) : ℕ :=
  if m = 2 then (if isLeapYear y then 29 else 28)
  else if m = 4 ∨ m = 6 ∨ m = 9 ∨ m = 11 then 30
  else 31

/-- The smallest element of a list of days, if any. -/
def smallestDay? : List ℕ → Option ℕ
  | [] => none
  | d :: rest =>
    match smallestDay? rest with
    | none => some d
    | some e => some (min d e)

/-- Modelled from the spec: the backend `toggle_task_completed` monthly
rollover (`nextOccurrence` for a `monthly` rule, not under `src/`): from
the target days-of-month, take the smallest day strictly greater than the
previous date's day within the same month; if none, the smallest target
day in the following month; clamp the target day to the month's last
valid day when it exceeds it (spec §8: day 31 in a 30-day month clamps to
the last day).  An empty day set is left unspecified by the spec (it
recommends rejecting it at construction); this model returns the previous
date for it. -/
def nextMonthlyOccurrence (prev : CalendarDate) (days : List ℕ) :
    CalendarDate :=
  match smallestDay? (days.filter (fun d => prev.day < d)) with
  | some d =>
    { year := prev.year, month := prev.month
      day := min d (daysInMonth prev.year prev.month) }
  | none =>
    match smallestDay? days with
    | some d =>
      if prev.month = 12 then
        { year := prev.year + 1, month := 1, day := min d (daysInMonth (prev.year + 1) 1) }
      else
        { year := prev.year, month := prev.month + 1
          day := min d (daysInMonth prev.year (prev.month + 1)) }
    | none => prev

theorem smallestDay?_mem (l : List ℕ) (d : ℕ) (h : smallestDay? l = some d) :
    d ∈ l := by
  induction l generalizing d with
  | nil => exact absurd h (by simp [smallestDay?])
  | cons a rest ih =>
    unfold smallestDay? at h
    cases hr : smallestDay? rest with
    | none =>
      rw [hr] at h
      simp only [Option.some.injEq] at h
      subst h
      exact List.mem_cons_self a rest
    | some e =>
      rw [hr] at h
      simp only [Option.some.injEq] at h
      subst h
      rcases le_total a e with hle | hle
      · rw [min_eq_left hle]; exact List.mem_cons_self a rest
      · rw [min_eq_right hle]; exact List.mem_cons_of_mem a (ih e hr)

theorem smallestDay?_eq_none (l : List ℕ) (h : smallestDay? l = none) :
    l = [] := by
  cases l with
  | nil => rfl
  | cons a rest =>
    exfalso
    unfold smallestDay? at h
    revert h
    cases smallestDay? rest <;> simp

theorem smallestDay?_le (l : List ℕ) (d : ℕ) (h : smallestDay? l = some d) :
    ∀ e ∈ l, d ≤ e := by
  induction l generalizing d with
  | nil => exact absurd h (by simp [smallestDay?])
  | cons a rest ih =>
    unfold smallestDay? at h
    intro e he
    cases hr : smallestDay? rest with
    | none =>
      have hrest := smallestDay?_eq_none rest hr
      subst hrest
      rw [hr] at h
      simp only [Option.some.injEq] at h
      subst h
      rw [List.mem_singleton] at he
      exact Nat.le_of_eq he.symm
    | some m =>
      rw [hr] at h
      simp only [Option.some.injEq] at h
      subst h
      rcases List.mem_cons.mp he with rfl | he'
      · exact Nat.min_le_left _ _
      · exact Nat.le_trans (Nat.min_le_right _ _) (ih m hr e he')

theorem smallestDay?_of_ne_nil (l : List ℕ) (h : l ≠ []) :
    ∃ d, smallestDay? l = some d := by
  cases l with
  | nil => exact absurd rfl h
  | cons a rest =>
    unfold smallestDay?
    cases smallestDay? rest with
    | none => exact ⟨a, rfl⟩
    | some e => exact ⟨min a e, rfl⟩

/-! ## C9: monthly rollover -/

/-- C9 (modelled from the spec, the backend computation being outside
`src/`): the monthly rollover picks the smallest target day strictly
greater than the previous day within the same month, else the smallest
target day in the following month, in both cases clamped to the month's
last valid day; in particular day set `{31}` from 2024-04-15 (April has
30 days) yields April 30, the last day of that month. -/
theorem nextMonthlyOccurrence_spec :
    (∀ (prev : CalendarDate) (days : List ℕ),
      (∃ d ∈ days, prev.day < d) →
      ∃ d ∈ days, prev.day < d ∧ (∀ e ∈ days, prev.day < e → d ≤ e) ∧
        nextMonthlyOccurrence prev days =
          { year := prev.year, month := prev.month
            day := min d (daysInMonth prev.year prev.month) }) ∧
    (∀ (prev : CalendarDate) (days : List ℕ),
      days ≠ [] → (∀ d ∈ days, d ≤ prev.day) →
      ∃ d ∈ days, (∀ e ∈ days, d ≤ e) ∧
        nextMonthlyOccurrence prev days =
          (if prev.month = 12 then
            { year := prev.year + 1, month := 1
              day := min d (daysInMonth (prev.year + 1) 1) }
          else
            { year := prev.year, month := prev.month + 1
              day := min d (daysInMonth prev.year (prev.month + 1)) })) ∧
    nextMonthlyOccurrence { year := 2024, month := 4, day := 15 } [31] =
      { year := 2024, month := 4, day := 30 } ∧
    daysInMonth 2024 4 = 30 := by
  refine ⟨?_, ?_, by decide, by decide⟩
  · intro prev days hex
    obtain ⟨c, hc, hcgt⟩ := hex
    have hfil : c ∈ days.filter (fun d => prev.day < d) :=
      List.mem_filter.mpr ⟨hc, by simpa using hcgt⟩
    have hne : days.filter (fun d => prev.day < d) ≠ [] :=
      List.ne_nil_of_mem hfil
    obtain ⟨d, hd⟩ := smallestDay?_of_ne_nil _ hne
    have hdmem := smallestDay?_mem _ d hd
    have hdin : d ∈ days := (List.mem_filter.mp hdmem).1
    have hdgt : prev.day < d := by
      have := (List.mem_filter.mp hdmem).2
      simpa using this
    refine ⟨d, hdin, hdgt, ?_, ?_⟩
    · intro e he hegt
      exact smallestDay?_le _ d hd e
        (List.mem_filter.mpr ⟨he, by simpa using hegt⟩)
    · unfold nextMonthlyOccurrence
      rw [hd]
  · intro prev days hne hle
    have hfil : days.filter (fun d => prev.day < d) = [] := by
      rw [List.filter_eq_nil_iff]
      intro d hd
      simpa using Nat.not_lt.mpr (hle d hd)
    obtain ⟨d, hd⟩ := smallestDay?_of_ne_nil days hne
    refine ⟨d, smallestDay?_mem days d hd, smallestDay?_le days d hd, ?_⟩
    unfold nextMonthlyOccurrence
    rw [hfil]
    simp only [smallestDay?]
    rw [hd]

/-- Witness for C9: the same-month branch applied at the concrete date
2024-04-15 with day set `{31}`. -/
theorem nextMonthlyOccurrence_spec_witness :
    ∃ d ∈ [31], 15 < d ∧ (∀ e ∈ [31], 15 < e → d ≤ e) ∧
      nextMonthlyOccurrence { year := 2024, month := 4, day := 15 } [31] =
        { year := 2024, month := 4, day := min d (daysInMonth 2024 4) } :=
  nextMonthlyOccurrence_spec.1 { year := 2024, month := 4, day := 15 } [31]
    ⟨31, by decide, by decide⟩

end LinkFlow
